import Mathlib

/-!
Verification development for the rlax schedule and general-value-function
modules.  Values are modelled as rationals (ℚ), step counts as integers (ℤ),
and tensors as nested lists.  Fallible construction is modelled with
`Except String`.
-/

/-- Embedding of `polynomial_schedule` from `rlax/_src/schedules.py`.
The Python code raises `ValueError` for negative `transition_steps`,
returns the constant `end_value` function for `transition_steps == 0`,
and otherwise returns the closure computing
`(init_value - end_value) * (1 - clip(step - begin, 0, steps)/steps)**power
 + end_value`, where `jnp.clip(a, lo, hi) = min (max a lo) hi`. -/
def polynomial_schedule (init_value end_value : ℚ) (power : ℕ)
    (transition_steps transition_begin : ℤ) : Except String (ℤ → ℚ) :=
  if transition_steps < 0 then
    Except.error "transition_steps must be a non-negative integer."
  else if transition_steps = 0 then
    Except.ok (fun _ => end_value)
  else
    Except.ok (fun step_count =>
      (init_value - end_value) *
        (1 - ((min (max (step_count - transition_begin) 0) transition_steps : ℤ) : ℚ)
              / ((transition_steps : ℤ) : ℚ)) ^ power
        + end_value)

/-- Apply a constructed schedule to a step count; `none` when construction
failed. -/
def applySchedule (s : Except String (ℤ → ℚ)) (step_count : ℤ) : Option ℚ :=
  match s with
  | Except.ok f => some (f step_count)
  | Except.error _ => none

/-- C1: with `transition_steps == 0`, the function returned by
`polynomial_schedule` returns `end_value` for every step count, including
negative and arbitrarily large ones, for every `init_value`, `end_value`,
`power` and `transition_begin`. -/
theorem polynomial_schedule_zero_steps_constant_end
    (init_value end_value : ℚ) (power : ℕ) (transition_begin step_count : ℤ) :
    applySchedule
      (polynomial_schedule init_value end_value power 0 transition_begin)
      step_count = some end_value := by
  rfl

/-- Clamp as the spec words it: values below `lo` clamp to `lo`, values above
`hi` clamp to `hi`. -/
def clampSpec (x lo hi : ℤ) : ℤ :=
  if x < lo then lo else if hi < x then hi else x

lemma code_clip_eq_clampSpec (x hi : ℤ) (h : 0 ≤ hi) :
    min (max x 0) hi = clampSpec x 0 hi := by
  unfold clampSpec
  split_ifs <;> omega

lemma polynomial_schedule_pos_eval (init_value end_value : ℚ) (power : ℕ)
    (transition_steps transition_begin : ℤ) (hts : 0 < transition_steps)
    (step_count : ℤ) :
    applySchedule
      (polynomial_schedule init_value end_value power transition_steps
        transition_begin) step_count =
      some ((init_value - end_value) *
        (1 - ((min (max (step_count - transition_begin) 0) transition_steps
               : ℤ) : ℚ) / ((transition_steps : ℤ) : ℚ)) ^ power
        + end_value) := by
  unfold polynomial_schedule
  rw [if_neg (by omega), if_neg (by omega)]
  rfl

/-- C2 counterexample: the claim as stated fails for `power = 0`.  With
`polynomial_schedule 10 20 0 1 0` and `step_count = 1 ≥ transition_begin +
transition_steps`, the code returns `10` (the init value), not the end
value `20`, because `frac ^ 0 = 1` even at `frac = 0`. -/
theorem polynomial_schedule_end_value_power_zero_cex :
    applySchedule (polynomial_schedule 10 20 0 1 0) 1 = some 10 ∧
      (10 : ℚ) ≠ 20 := by
  constructor
  · rw [polynomial_schedule_pos_eval 10 20 0 1 0 (by decide) 1]
    norm_num
  · norm_num

/-- C2 (amended): for `transition_steps > 0`, the schedule returns exactly
`init_value` when `step_count ≤ transition_begin` (for every power), and
exactly `end_value` when `step_count ≥ transition_begin + transition_steps`
provided `power ≠ 0`. -/
theorem polynomial_schedule_boundary_values (init_value end_value : ℚ)
    (power : ℕ) (transition_steps transition_begin : ℤ)
    (hts : 0 < transition_steps) :
    (∀ step_count, step_count ≤ transition_begin →
      applySchedule
        (polynomial_schedule init_value end_value power transition_steps
          transition_begin) step_count = some init_value) ∧
    (power ≠ 0 → ∀ step_count, transition_begin + transition_steps ≤ step_count →
      applySchedule
        (polynomial_schedule init_value end_value power transition_steps
          transition_begin) step_count = some end_value) := by
  constructor
  · intro step_count hsc
    rw [polynomial_schedule_pos_eval _ _ _ _ _ hts]
    have hcount : min (max (step_count - transition_begin) 0) transition_steps
        = 0 := by omega
    rw [hcount]
    norm_num
  · intro hp step_count hsc
    rw [polynomial_schedule_pos_eval _ _ _ _ _ hts]
    have hcount : min (max (step_count - transition_begin) 0) transition_steps
        = transition_steps := by omega
    rw [hcount]
    have hne : ((transition_steps : ℤ) : ℚ) ≠ 0 := by
      exact_mod_cast (by omega : transition_steps ≠ 0)
    rw [div_self hne]
    norm_num [zero_pow hp]

/-- C2 witness: the boundary theorem instantiated at
`polynomial_schedule 30 10 2 10 4`; step 0 yields 30, step 14 yields 10. -/
theorem polynomial_schedule_boundary_values_witness :
    applySchedule (polynomial_schedule 30 10 2 10 4) 0 = some 30 ∧
      applySchedule (polynomial_schedule 30 10 2 10 4) 14 = some 10 :=
  ⟨(polynomial_schedule_boundary_values 30 10 2 10 4 (by decide)).1 0
      (by decide),
   (polynomial_schedule_boundary_values 30 10 2 10 4 (by decide)).2
      (by decide) 14 (by decide)⟩

/-- C3: for `transition_steps > 0`, the schedule computes
`count = clamp(step_count - transition_begin, 0, transition_steps)`,
`frac = 1 - count / transition_steps`, and returns
`(init_value - end_value) * frac ^ power + end_value`. -/
theorem polynomial_schedule_general_formula (init_value end_value : ℚ)
    (power : ℕ) (transition_steps transition_begin : ℤ)
    (hts : 0 < transition_steps) (step_count : ℤ) :
    applySchedule
      (polynomial_schedule init_value end_value power transition_steps
        transition_begin) step_count =
      some ((init_value - end_value) *
        (1 - ((clampSpec (step_count - transition_begin) 0 transition_steps
               : ℤ) : ℚ) / ((transition_steps : ℤ) : ℚ)) ^ power
        + end_value) := by
  rw [polynomial_schedule_pos_eval _ _ _ _ _ hts,
    code_clip_eq_clampSpec _ _ (le_of_lt hts)]

/-- C3 witness: the formula theorem at `polynomial_schedule 25 10 2 10 0`,
step 3: `count = 3`, `frac = 7/10`, value `10 + 15 * (7/10)^2 = 367/20`. -/
theorem polynomial_schedule_general_formula_witness :
    applySchedule (polynomial_schedule 25 10 2 10 0) 3 =
      some ((25 - 10) * (1 - ((clampSpec (3 - 0) 0 10 : ℤ) : ℚ)
        / ((10 : ℤ) : ℚ)) ^ 2 + 10) :=
  polynomial_schedule_general_formula 25 10 2 10 0 (by decide) 3

/-- C5: `polynomial_schedule` fails at construction for every negative
`transition_steps`, and succeeds (returns a schedule) for every
`transition_steps ≥ 0`. -/
theorem polynomial_schedule_validation (init_value end_value : ℚ)
    (power : ℕ) (transition_steps transition_begin : ℤ) :
    (transition_steps < 0 →
      (polynomial_schedule init_value end_value power transition_steps
        transition_begin).isOk = false) ∧
    (0 ≤ transition_steps →
      (polynomial_schedule init_value end_value power transition_steps
        transition_begin).isOk = true) := by
  constructor
  · intro h
    unfold polynomial_schedule
    rw [if_pos h]
    rfl
  · intro h
    unfold polynomial_schedule
    rw [if_neg (by omega)]
    split <;> rfl

/-- C5 witness: construction fails at `transition_steps = -1` and succeeds
at `transition_steps = 0` and `transition_steps = 10`. -/
theorem polynomial_schedule_validation_witness :
    (polynomial_schedule 10 20 1 (-1) 0).isOk = false ∧
      (polynomial_schedule 10 20 1 0 0).isOk = true ∧
      (polynomial_schedule 10 20 1 10 0).isOk = true :=
  ⟨(polynomial_schedule_validation 10 20 1 (-1) 0).1 (by decide),
   (polynomial_schedule_validation 10 20 1 0 0).2 (by decide),
   (polynomial_schedule_validation 10 20 1 10 0).2 (by decide)⟩

/-- C6: for `transition_steps > 0` and `power = 0`, the schedule returns
`init_value` for every step count, because `frac ^ 0 = 1` for every `frac`,
including `frac = 0`. -/
theorem polynomial_schedule_power_zero_constant_init (init_value end_value : ℚ)
    (transition_steps transition_begin : ℤ) (hts : 0 < transition_steps)
    (step_count : ℤ) :
    applySchedule
      (polynomial_schedule init_value end_value 0 transition_steps
        transition_begin) step_count = some init_value := by
  rw [polynomial_schedule_pos_eval _ _ _ _ _ hts]
  norm_num

/-- C6 witness: `polynomial_schedule 10 20 0 1 0` returns 10 at step 5,
past the end of the transition window. -/
theorem polynomial_schedule_power_zero_constant_init_witness :
    applySchedule (polynomial_schedule 10 20 0 1 0) 5 = some 10 :=
  polynomial_schedule_power_zero_constant_init 10 20 1 0 (by decide) 5

/-- Modelled from the spec: `piecewise_constant_schedule` is absent from the
sources (only its tests are present).  Per the spec, the schedule maps a step
count to `init_value` multiplied by the product of every scale factor whose
threshold is ≤ the step count; the boundaries-and-scales mapping is a finite
set of (integer threshold, scale) pairs in no particular order. -/
def piecewise_constant_schedule (init_value : ℚ)
    (boundaries_and_scales : List (ℤ × ℚ)) : ℤ → ℚ :=
  fun step_count =>
    init_value *
      ((boundaries_and_scales.filter (fun b => b.1 ≤ step_count)).map
        Prod.snd).prod

lemma piecewise_filter_prod_eq_ite_prod (bs : List (ℤ × ℚ)) (step_count : ℤ) :
    ((bs.filter (fun b => b.1 ≤ step_count)).map Prod.snd).prod =
      (bs.map (fun b => if b.1 ≤ step_count then b.2 else 1)).prod := by
  induction bs with
  | nil => rfl
  | cons b t ih =>
    by_cases h : b.1 ≤ step_count
    · simp [List.filter_cons, h, ih]
    · simp [List.filter_cons, h, ih]

/-- C4: for every boundaries-and-scales mapping, the schedule returns
`init_value` times the product of every scale whose threshold is at most the
step count; in particular `piecewise_constant_schedule (1/10) [(3, 2), (6, 1/2)]`
at steps 0..9 yields `[0.1, 0.1, 0.1, 0.2, 0.2, 0.2, 0.1, 0.1, 0.1, 0.1]`. -/
theorem piecewise_constant_schedule_product_eval (init_value : ℚ)
    (bs : List (ℤ × ℚ)) (step_count : ℤ) :
    piecewise_constant_schedule init_value bs step_count =
      init_value *
        (bs.map (fun b => if b.1 ≤ step_count then b.2 else 1)).prod ∧
    (List.range 10).map
        (fun n => piecewise_constant_schedule (1/10) [(3, 2), (6, 1/2)] n) =
      [1/10, 1/10, 1/10, 1/5, 1/5, 1/5, 1/10, 1/10, 1/10, 1/10] := by
  constructor
  · rw [piecewise_constant_schedule, piecewise_filter_prod_eq_ite_prod]
  · simp only [List.range_succ, List.map_append, List.map_cons, List.map_nil,
      List.range_zero, piecewise_constant_schedule, List.filter]
    norm_num

/-- C7: `piecewise_constant_schedule` accepts the empty mapping and then
returns the constant `init_value`; and supplying the thresholds in any order
(any permutation of the mapping) leaves every output unchanged. -/
theorem piecewise_constant_schedule_empty_and_perm :
    (∀ (init_value : ℚ) (step_count : ℤ),
      piecewise_constant_schedule init_value [] step_count = init_value) ∧
    (∀ (init_value : ℚ) (l1 l2 : List (ℤ × ℚ)), l1.Perm l2 →
      ∀ step_count, piecewise_constant_schedule init_value l1 step_count =
        piecewise_constant_schedule init_value l2 step_count) := by
  constructor
  · intro init_value step_count
    simp [piecewise_constant_schedule]
  · intro init_value l1 l2 hperm step_count
    unfold piecewise_constant_schedule
    rw [List.Perm.prod_eq (List.Perm.map Prod.snd
      (List.Perm.filter (fun b => b.1 ≤ step_count) hperm))]

/-- C7 witness: the empty mapping yields the constant 1/10, and swapping the
two thresholds of `[(3, 2), (6, 1/2)]` leaves the value at step 7
unchanged. -/
theorem piecewise_constant_schedule_empty_and_perm_witness :
    piecewise_constant_schedule (1/10) [] 5 = 1/10 ∧
      piecewise_constant_schedule (1/10) [(6, 1/2), (3, 2)] 7 =
        piecewise_constant_schedule (1/10) [(3, 2), (6, 1/2)] 7 :=
  ⟨piecewise_constant_schedule_empty_and_perm.1 (1/10) 5,
   piecewise_constant_schedule_empty_and_perm.2 (1/10)
     [(6, 1/2), (3, 2)] [(3, 2), (6, 1/2)]
     (List.Perm.swap (3, 2) (6, 1/2) []) 7⟩

/-- C8: negating the base value of a piecewise-constant schedule negates
every output value (the schedule is linear in `init_value`). -/
theorem piecewise_constant_schedule_neg_init (init_value : ℚ)
    (bs : List (ℤ × ℚ)) (step_count : ℤ) :
    piecewise_constant_schedule (-init_value) bs step_count =
      -(piecewise_constant_schedule init_value bs step_count) := by
  unfold piecewise_constant_schedule
  rw [neg_mul]

/-- Combine consecutive elements of a list with `f`: the result has one
fewer element than the input (empty for fewer than two elements).  This is
the temporal-difference pattern shared by both auxiliary-reward
transforms. -/
def consecutivePairs {α β : Type} (f : α → α → β) : List α → List β
  | a :: b :: rest => f a b :: consecutivePairs f (b :: rest)
  | _ => []

lemma consecutivePairs_length {α β : Type} (f : α → α → β) (l : List α) :
    (consecutivePairs f l).length = l.length - 1 := by
  induction l with
  | nil => rfl
  | cons a t ih =>
    cases t with
    | nil => rfl
    | cons b rest => simpa [consecutivePairs] using ih

lemma exists_of_mem_consecutivePairs {α β : Type} {f : α → α → β}
    {l : List α} {x : β} (hx : x ∈ consecutivePairs f l) :
    ∃ a ∈ l, ∃ b ∈ l, x = f a b := by
  induction l with
  | nil => simp [consecutivePairs] at hx
  | cons a t ih =>
    cases t with
    | nil => simp [consecutivePairs] at hx
    | cons b rest =>
      rw [consecutivePairs, List.mem_cons] at hx
      rcases hx with h | h
      · exact ⟨a, by simp, b, by simp, h⟩
      · obtain ⟨u, hu, v, hv, hx⟩ := ih h
        exact ⟨u, List.mem_cons_of_mem a hu, v, List.mem_cons_of_mem a hv, hx⟩

/-- Modelled from the spec: `feature_control_rewards` is absent from the
sources (only its tests are present).  Per the spec, a feature tensor has a
leading time axis (here: a list of feature vectors); for t = 0..T-2 with
`cur = features[t]`, `nxt = features[t+1]`, the mode determines the output:
`feature` yields `nxt`, `absolute_change` yields `abs (nxt - cur)`,
`increase` yields `nxt - cur`, `decrease` yields `cur - nxt`, and
`potential` yields `discount * nxt - cur` (failing when `discount` is
absent); an unrecognized mode string fails. -/
def feature_control_rewards (features : List (List ℚ))
    (cumulant_type : String) (discount : Option ℚ) :
    Except String (List (List ℚ)) :=
  match cumulant_type with
  | "feature" =>
      Except.ok (consecutivePairs (fun _ nxt => nxt) features)
  | "absolute_change" =>
      Except.ok (consecutivePairs
        (List.zipWith (fun cur nxt => |nxt - cur|)) features)
  | "increase" =>
      Except.ok (consecutivePairs
        (List.zipWith (fun cur nxt => nxt - cur)) features)
  | "decrease" =>
      Except.ok (consecutivePairs
        (List.zipWith (fun cur nxt => cur - nxt)) features)
  | "potential" =>
      match discount with
      | some g =>
          Except.ok (consecutivePairs
            (List.zipWith (fun cur nxt => g * nxt - cur)) features)
      | none => Except.error "discount is required for the potential mode"
  | _ => Except.error "unknown cumulant_type"

lemma zipWith_increase_eq_neg_decrease (l1 l2 : List ℚ) :
    List.zipWith (fun cur nxt => nxt - cur) l1 l2 =
      (List.zipWith (fun cur nxt => cur - nxt) l1 l2).map (fun x => -x) := by
  induction l1 generalizing l2 with
  | nil => rfl
  | cons a t ih =>
    cases l2 with
    | nil => rfl
    | cons b rest => simp [ih, neg_sub]

lemma consecutivePairs_increase_eq_neg_decrease (l : List (List ℚ)) :
    consecutivePairs (List.zipWith (fun cur nxt => nxt - cur)) l =
      (consecutivePairs (List.zipWith (fun cur nxt => cur - nxt)) l).map
        (fun r => r.map (fun x => -x)) := by
  induction l with
  | nil => rfl
  | cons a t ih =>
    cases t with
    | nil => rfl
    | cons b rest =>
      simp only [consecutivePairs, List.map_cons]
      rw [zipWith_increase_eq_neg_decrease a b, ih]

/-- C9: on any feature tensor with time axis of length at least two, the
`increase` mode of `feature_control_rewards` returns element-wise the
negation of the `decrease` mode on the same input. -/
theorem feature_control_rewards_increase_neg_decrease
    (features : List (List ℚ)) (_hT : 2 ≤ features.length) :
    feature_control_rewards features "increase" none =
      Except.map (fun out => out.map (fun r => r.map (fun x => -x)))
        (feature_control_rewards features "decrease" none) := by
  unfold feature_control_rewards
  rw [consecutivePairs_increase_eq_neg_decrease]
  rfl

/-- C9 witness: the increase/decrease negation relation at the concrete
feature tensor `[[1, 2], [2, 4], [3, 6]]` from the repository tests. -/
theorem feature_control_rewards_increase_neg_decrease_witness :
    feature_control_rewards [[1, 2], [2, 4], [3, 6]] "increase" none =
      Except.map (fun out => out.map (fun r => r.map (fun x => -x)))
        (feature_control_rewards [[1, 2], [2, 4], [3, 6]] "decrease" none) :=
  feature_control_rewards_increase_neg_decrease
    [[1, 2], [2, 4], [3, 6]] (by decide)

/-- Modelled from the spec: `pixel_control_rewards` is absent from the
sources (only its tests are present).  Per the spec, each time frame (a
height-by-width-by-channel nested list) is spatially downsampled by
non-overlapping average pooling with window and stride `cell_size`; this is
the mean of one pooling cell restricted to channel `c`. -/
def cellMean (cs : ℕ) (frame : List (List (List ℚ))) (i j c : ℕ) : ℚ :=
  ((List.range cs).map (fun u =>
    ((List.range cs).map (fun v =>
      ((frame.getD (i * cs + u) []).getD (j * cs + v) []).getD c 0)).sum)).sum
    / ((cs * cs : ℕ) : ℚ)

/-- Modelled from the spec: average pooling of one frame, producing shape
(height / cell, width / cell, channel); the width and channel counts are
read off the first row and first pixel, as every row and pixel share them
under the shape contract. -/
def poolFrame (cs : ℕ) (frame : List (List (List ℚ))) :
    List (List (List ℚ)) :=
  (List.range (frame.length / cs)).map (fun i =>
    (List.range ((frame.headD []).length / cs)).map (fun j =>
      (List.range ((frame.headD []).headD []).length).map (fun c =>
        cellMean cs frame i j c)))

/-- Modelled from the spec: the element-wise absolute difference of two
pooled frames. -/
def absDiffFrame (a b : List (List (List ℚ))) : List (List (List ℚ)) :=
  List.zipWith (List.zipWith (List.zipWith (fun x y => |y - x|))) a b

/-- Modelled from the spec: the mean across the channel axis of one
pixel. -/
def chanMean (px : List ℚ) : ℚ := px.sum / (px.length : ℚ)

/-- Modelled from the spec: `pixel_control_rewards` pools every frame,
takes the absolute temporal difference of consecutive pooled frames, and
averages across the channel axis, collapsing the channel dimension. -/
def pixel_control_rewards (observations : List (List (List (List ℚ))))
    (cell_size : ℕ) : List (List (List ℚ)) :=
  (consecutivePairs absDiffFrame (observations.map (poolFrame cell_size))).map
    (fun fr => fr.map (fun row => row.map chanMean))

/-- The shape contract of an observation tensor: time length `T`, every
frame of height `H`, every row of width `W`, every pixel with `C`
channels. -/
def HasShape4 (obs : List (List (List (List ℚ)))) (T H W C : ℕ) : Prop :=
  obs.length = T ∧ ∀ f ∈ obs, f.length = H ∧
    ∀ r ∈ f, r.length = W ∧ ∀ p ∈ r, p.length = C

lemma exists_of_mem_zipWith {α β γ : Type} {g : α → β → γ} :
    ∀ {l1 : List α} {l2 : List β} {x : γ}, x ∈ List.zipWith g l1 l2 →
      ∃ u ∈ l1, ∃ v ∈ l2, x = g u v := by
  intro l1
  induction l1 with
  | nil => intro l2 x hx; simp at hx
  | cons a t ih =>
    intro l2 x hx
    cases l2 with
    | nil => simp at hx
    | cons b rest =>
      rw [List.zipWith_cons_cons, List.mem_cons] at hx
      rcases hx with h | h
      · exact ⟨a, by simp, b, by simp, h⟩
      · obtain ⟨u, hu, v, hv, hx⟩ := ih h
        exact ⟨u, List.mem_cons_of_mem a hu, v,
          List.mem_cons_of_mem b hv, hx⟩

lemma poolFrame_shape {cs H W C : ℕ} {f : List (List (List ℚ))}
    (hf : f.length = H ∧ ∀ r ∈ f, r.length = W ∧ ∀ p ∈ r, p.length = C) :
    (poolFrame cs f).length = H / cs ∧
      ∀ row ∈ poolFrame cs f, row.length = W / cs := by
  obtain ⟨hlen, hrows⟩ := hf
  constructor
  · simp [poolFrame, hlen]
  · intro row hrow
    rw [poolFrame, List.mem_map] at hrow
    obtain ⟨i, hi, hrow⟩ := hrow
    rw [List.mem_range, hlen] at hi
    have hpos : 0 < H / cs := lt_of_le_of_lt (Nat.zero_le i) hi
    have hHpos : 0 < H := lt_of_lt_of_le hpos (Nat.div_le_self H cs)
    have hhead : f.headD [] ∈ f := by
      cases f with
      | nil =>
        simp at hlen
        omega
      | cons r rest => simp
    have hW : (f.headD []).length = W := (hrows _ hhead).1
    rw [← hrow, List.length_map, List.length_range, hW]

lemma abs_nonneg_of_mem_zipWith3 {pa pb : List ℚ} {x : ℚ}
    (hx : x ∈ List.zipWith (fun u v => |v - u|) pa pb) : 0 ≤ x := by
  obtain ⟨u, _, v, _, hx⟩ := exists_of_mem_zipWith hx
  rw [hx]
  exact abs_nonneg _

/-- C10: on an observation tensor of shape (T, H, W, C) with T ≥ 2 and H, W
divisible by a positive `cell_size`, `pixel_control_rewards` returns an
array of shape (T − 1, H / cell_size, W / cell_size) all of whose entries
are non-negative. -/
theorem pixel_control_rewards_shape_nonneg
    (obs : List (List (List (List ℚ)))) (T H W C cs : ℕ)
    (hshape : HasShape4 obs T H W C) (_hT : 2 ≤ T) (_hcs : 0 < cs)
    (_hH : cs ∣ H) (_hW : cs ∣ W) :
    (pixel_control_rewards obs cs).length = T - 1 ∧
      (∀ fr ∈ pixel_control_rewards obs cs, fr.length = H / cs ∧
        ∀ row ∈ fr, row.length = W / cs) ∧
      (∀ fr ∈ pixel_control_rewards obs cs, ∀ row ∈ fr, ∀ x ∈ row,
        0 ≤ x) := by
  obtain ⟨hlen, hframes⟩ := hshape
  have hpooled : ∀ pf ∈ obs.map (poolFrame cs), pf.length = H / cs ∧
      ∀ row ∈ pf, row.length = W / cs := by
    intro pf hpf
    rw [List.mem_map] at hpf
    obtain ⟨f, hf, hpf⟩ := hpf
    rw [← hpf]
    exact poolFrame_shape (hframes f hf)
  refine ⟨?_, ?_, ?_⟩
  · rw [pixel_control_rewards, List.length_map, consecutivePairs_length,
      List.length_map, hlen]
  · intro fr hfr
    rw [pixel_control_rewards, List.mem_map] at hfr
    obtain ⟨d, hd, hfr⟩ := hfr
    obtain ⟨a, ha, b, hb, hab⟩ := exists_of_mem_consecutivePairs hd
    obtain ⟨haH, haW⟩ := hpooled a ha
    obtain ⟨hbH, hbW⟩ := hpooled b hb
    constructor
    · rw [← hfr, List.length_map, hab, absDiffFrame, List.length_zipWith,
        haH, hbH, Nat.min_self]
    · intro row hrow
      rw [← hfr, List.mem_map] at hrow
      obtain ⟨drow, hdrow, hrow⟩ := hrow
      rw [hab, absDiffFrame] at hdrow
      obtain ⟨ra, hra, rb, hrb, hdr⟩ := exists_of_mem_zipWith hdrow
      rw [← hrow, hdr, List.length_map, List.length_zipWith, haW ra hra,
        hbW rb hrb, Nat.min_self]
  · intro fr hfr row hrow x hx
    rw [pixel_control_rewards, List.mem_map] at hfr
    obtain ⟨d, hd, hfr⟩ := hfr
    obtain ⟨a, _, b, _, hab⟩ := exists_of_mem_consecutivePairs hd
    rw [← hfr, List.mem_map] at hrow
    obtain ⟨drow, hdrow, hrow⟩ := hrow
    rw [← hrow, List.mem_map] at hx
    obtain ⟨px, hpx, hx⟩ := hx
    rw [hab, absDiffFrame] at hdrow
    obtain ⟨ra, _, rb, _, hdr⟩ := exists_of_mem_zipWith hdrow
    rw [hdr] at hpx
    obtain ⟨pa, _, pb, _, hp⟩ := exists_of_mem_zipWith hpx
    rw [← hx, chanMean]
    apply div_nonneg
    · apply List.sum_nonneg
      intro y hy
      rw [hp] at hy
      exact abs_nonneg_of_mem_zipWith3 hy
    · exact Nat.cast_nonneg _

/-- C10 witness: the shape and non-negativity theorem at a concrete
observation tensor of shape (2, 2, 2, 1) with cell size 2. -/
theorem pixel_control_rewards_shape_nonneg_witness :
    (pixel_control_rewards
        [[[[0], [0]], [[0], [0]]], [[[1], [1]], [[1], [1]]]] 2).length =
      2 - 1 ∧
    (∀ fr ∈ pixel_control_rewards
        [[[[0], [0]], [[0], [0]]], [[[1], [1]], [[1], [1]]]] 2,
      fr.length = 2 / 2 ∧ ∀ row ∈ fr, row.length = 2 / 2) ∧
    (∀ fr ∈ pixel_control_rewards
        [[[[0], [0]], [[0], [0]]], [[[1], [1]], [[1], [1]]]] 2,
      ∀ row ∈ fr, ∀ x ∈ row, 0 ≤ x) :=
  pixel_control_rewards_shape_nonneg
    [[[[0], [0]], [[0], [0]]], [[[1], [1]], [[1], [1]]]] 2 2 2 1 2
    ⟨rfl, by decide⟩ (by decide) (by decide) (dvd_refl 2) (dvd_refl 2)
